import Mathlib

/-!
Shallow embedding of the Nutrition meal-planning utility
(`nutrition/models.py`, `nutrition/shopping.py`, `nutrition/macros.py`,
`nutrition/planner.py`) and proofs about its specification.

Python dictionaries are modelled as insertion-ordered association lists
(`List (String × α)`) with Python's update semantics: assigning to an
existing key replaces the value in place, assigning to a fresh key appends.
Python numbers (floats) are modelled exactly as rationals (`ℚ`); `None`
for an optional macro field is `Option.none`.
-/

/-- Python `dict.__setitem__`: replace in place if the key exists,
otherwise append at the end. -/
def dictInsert {α : Type} (k : String) (v : α) : List (String × α) → List (String × α)
  | [] => [(k, v)]
  | (k', v') :: rest => if k' = k then (k, v) :: rest else (k', v') :: dictInsert k v rest

/-- Python `dict.get(k)` / `k in dict` lookup on the association list. -/
def dictGet {α : Type} (k : String) : List (String × α) → Option α
  | [] => none
  | (k', v') :: rest => if k' = k then some v' else dictGet k rest

/-- The keys of an association list, in insertion order. -/
def dictKeys {α : Type} (d : List (String × α)) : List String := d.map Prod.fst

/-- Python `dict.values()`. -/
def dictValues {α : Type} (d : List (String × α)) : List α := d.map Prod.snd

/-- Python's `str.lower()`, modelled character-wise over the string's
data (equivalent to `String.map Char.toLower`, but stated structurally so
concrete instances evaluate). -/
def strLower (s : String) : String := ⟨s.data.map Char.toLower⟩

/-- `models.Ingredient`: name, amount, unit, and four independently
optional macro fields (`None` = unknown, not zero). -/
structure Ingredient where
  name : String
  amount : ℚ
  unit : String
  calories : Option ℚ
  protein : Option ℚ
  fat : Option ℚ
  carbs : Option ℚ
deriving DecidableEq, Repr

/-- The `Ingredient` dataclass constructor together with `__post_init__`,
which lower-cases the name. -/
def Ingredient.make (name : String) (amount : ℚ) (unit : String)
    (calories protein fat carbs : Option ℚ) : Ingredient :=
  { name := strLower name, amount := amount, unit := unit,
    calories := calories, protein := protein, fat := fat, carbs := carbs }

/-- The serialized (JSON-dict) form of an ingredient: `amount`, `unit`,
and the macro keys, each present exactly when the value is not `None`
(`Ingredient.to_dict` skips `None` fields and `from_dict` uses `.get`,
so a missing key and a stored `None` coincide; we model both as
`Option.none`). -/
structure IngData where
  amount : ℚ
  unit : String
  calories : Option ℚ
  protein : Option ℚ
  fat : Option ℚ
  carbs : Option ℚ
deriving DecidableEq, Repr

/-- `Ingredient.to_dict`. -/
def Ingredient.to_dict (i : Ingredient) : IngData :=
  { amount := i.amount, unit := i.unit,
    calories := i.calories, protein := i.protein, fat := i.fat, carbs := i.carbs }

/-- `Ingredient.from_dict(name, data)`. -/
def Ingredient.from_dict (name : String) (d : IngData) : Ingredient :=
  Ingredient.make name d.amount d.unit d.calories d.protein d.fat d.carbs

/-- `Ingredient.scale(multiplier)`: scale the amount and every present
macro field; absent fields stay absent. -/
def Ingredient.scale (i : Ingredient) (m : ℚ) : Ingredient :=
  { name := i.name, amount := i.amount * m, unit := i.unit,
    calories := i.calories.map (· * m), protein := i.protein.map (· * m),
    fat := i.fat.map (· * m), carbs := i.carbs.map (· * m) }

/-- `models.Course`: a named dish with a category (`course_type`),
description, and an insertion-ordered ingredient dictionary. -/
structure Course where
  name : String
  course_type : String
  description : String
  ingredients : List (String × Ingredient)
deriving DecidableEq, Repr

/-- The `Course` dataclass constructor together with `__post_init__`,
which lower-cases the name and the category. -/
def Course.make (name course_type description : String)
    (ingredients : List (String × Ingredient)) : Course :=
  { name := strLower name, course_type := strLower course_type,
    description := description, ingredients := ingredients }

/-- `Course.add_ingredient`: store the ingredient under its own name. -/
def Course.add_ingredient (c : Course) (i : Ingredient) : Course :=
  { c with ingredients := dictInsert i.name i c.ingredients }

/-- The serialized form of a course: description plus the `ingridients`
dictionary (legacy spelling kept by the code). -/
structure CourseData where
  description : String
  ingridients : List (String × IngData)
deriving DecidableEq, Repr

/-- `Course.to_dict`. -/
def Course.to_dict (c : Course) : CourseData :=
  { description := c.description,
    ingridients := c.ingredients.map (fun p => (p.1, p.2.to_dict)) }

/-- `Course.from_dict(name, course_type, data)`: rebuild the course by
`add_ingredient`-ing each deserialized ingredient in stored order. -/
def Course.from_dict (name course_type : String) (data : CourseData) : Course :=
  data.ingridients.foldl
    (fun c p => c.add_ingredient (Ingredient.from_dict p.1 p.2))
    (Course.make name course_type data.description [])

/-- `Course.scale_servings(servings)`: a fresh course whose every
ingredient is scaled. -/
def Course.scale_servings (c : Course) (servings : ℚ) : Course :=
  c.ingredients.foldl
    (fun sc p => sc.add_ingredient (p.2.scale servings))
    (Course.make c.name c.course_type c.description [])

/-- A menu document: category → (recipe name → serialized course). -/
abbrev Menu : Type := List (String × List (String × CourseData))

/-- The merge of two same-unit occurrences performed by
`ShoppingListGenerator.aggregate_ingredients` (shopping.py lines 33-41):
amount is added, and each macro field becomes
`(old or 0) + (new or 0)` when at least one side is present,
and stays `None` when both are absent. -/
def mergeField (a b : Option ℚ) : Option ℚ :=
  if a ≠ none ∨ b ≠ none then some (a.getD 0 + b.getD 0) else none

/-- One accumulator step of `aggregate_ingredients` for a single
`(ing_name, ing_data)` occurrence (shopping.py lines 26-47). -/
def aggStep (agg : List (String × Ingredient)) (occ : String × IngData) :
    List (String × Ingredient) :=
  let ing_name := occ.1
  let ingredient := Ingredient.from_dict ing_name occ.2
  match dictGet ing_name agg with
  | some existing =>
      if existing.unit = ingredient.unit then
        dictInsert ing_name
          (Ingredient.make ing_name (existing.amount + ingredient.amount) existing.unit
            (mergeField existing.calories ingredient.calories)
            (mergeField existing.protein ingredient.protein)
            (mergeField existing.fat ingredient.fat)
            (mergeField existing.carbs ingredient.carbs)) agg
      else
        dictInsert (ing_name ++ "_" ++ ingredient.unit) ingredient agg
  | none => dictInsert ing_name ingredient agg

/-- The ingredient occurrences a menu yields, in iteration order, skipping
the `nutrition_totals` side-car key (shopping.py lines 18-26). -/
def menuOccurrences (menu : Menu) : List (String × IngData) :=
  (menu.filter (fun e => e.1 ≠ "nutrition_totals")).flatMap
    (fun e => e.2.flatMap (fun dish => dish.2.ingridients))

/-- `ShoppingListGenerator.aggregate_ingredients`. -/
def aggregate_ingredients (menu : Menu) : List Ingredient :=
  dictValues ((menuOccurrences menu).foldl aggStep [])

/-- Build a one-category menu whose i-th dish carries exactly one
ingredient occurrence, key `nm`, data `ds[i]` (dish names distinct). -/
def menuOfOccs (nm : String) (ds : List IngData) : Menu :=
  [("meals",
    (List.range ds.length).zip ds |>.map
      (fun p => ("dish" ++ toString p.1,
        ({ description := "", ingridients := [(nm, p.2)] } : CourseData))))]

/-! ### Association-list (Python dict) lemmas -/

lemma dictInsert_head {α : Type} (k : String) (v w : α) (rest : List (String × α)) :
    dictInsert k v ((k, w) :: rest) = (k, v) :: rest := by
  simp [dictInsert]

lemma dictInsert_of_not_mem {α : Type} (k : String) (v : α) :
    ∀ d : List (String × α), k ∉ dictKeys d → dictInsert k v d = d ++ [(k, v)]
  | [], _ => rfl
  | (k', v') :: rest, h => by
      have h1 : k' ≠ k := by
        intro hk; exact h (by simp [dictKeys, hk])
      have h2 : k ∉ dictKeys rest := by
        intro hk; exact h (by simp [dictKeys] at hk ⊢; exact Or.inr hk)
      simp [dictInsert, h1, dictInsert_of_not_mem k v rest h2]

lemma strAppend_right_inj (a b c : String) (h : a ++ b = a ++ c) : b = c := by
  apply String.ext
  have hd := congrArg String.data h
  simpa [String.data_append] using hd

lemma strAppendUnder_ne (a u : String) : a ++ "_" ++ u ≠ a := by
  intro h
  have h2 := congrArg String.length h
  have h1 : ("_" : String).length = 1 := rfl
  simp [String.length_append, h1] at h2
  omega

/-! ### Occurrence lists of the synthetic menus -/

lemma flatMap_single_ing (nm : String) (l : List (ℕ × IngData)) :
    (l.map (fun p => ("dish" ++ toString p.1,
        ({ description := "", ingridients := [(nm, p.2)] } : CourseData)))).flatMap
      (fun dish => dish.2.ingridients) = l.map (fun p => (nm, p.2)) := by
  induction l with
  | nil => rfl
  | cons a l ih => simp_all

lemma menuOccurrences_menuOfOccs (nm : String) (ds : List IngData) :
    menuOccurrences (menuOfOccs nm ds) = ds.map (fun d => (nm, d)) := by
  have hfilter : menuOccurrences (menuOfOccs nm ds)
      = ((List.range ds.length).zip ds |>.map
          (fun p => ("dish" ++ toString p.1,
            ({ description := "", ingridients := [(nm, p.2)] } : CourseData)))).flatMap
        (fun dish => dish.2.ingridients) := by
    simp [menuOccurrences, menuOfOccs]
  rw [hfilter, flatMap_single_ing]
  have hsnd : ((List.range ds.length).zip ds).map Prod.snd = ds :=
    List.map_snd_zip _ _ (by simp)
  calc ((List.range ds.length).zip ds).map (fun p => (nm, p.2))
      = (((List.range ds.length).zip ds).map Prod.snd).map (fun d => (nm, d)) := by
        rw [List.map_map]; rfl
    _ = ds.map (fun d => (nm, d)) := by rw [hsnd]

/-! ### Merge-field lemmas -/

/-- Modelled from the spec: the per-field merge policy as the spec words it
("old-or-zero plus new-or-zero unless both are absent, in which case the
field stays absent"), to be compared with the code's `mergeField`. -/
def specMerge (a b : Option ℚ) : Option ℚ :=
  match a, b with
  | none, none => none
  | some v, none => some v
  | none, some w => some w
  | some v, some w => some (v + w)

lemma mergeField_eq_specMerge (a b : Option ℚ) : mergeField a b = specMerge a b := by
  cases a <;> cases b <;> simp [mergeField, specMerge]

lemma mergeField_scale (k : ℕ) (o : Option ℚ) :
    mergeField (o.map (fun c => (k : ℚ) * c)) o = o.map (fun c => ((k : ℚ) + 1) * c) := by
  cases o with
  | none => simp [mergeField]
  | some c => simp [mergeField]; ring

/-! ### Aggregation under pairwise-distinct units -/

lemma aggFold_mismatch (nm : String) (d0 : IngData) :
    ∀ (rest processed : List IngData),
      d0.unit ∉ (processed ++ rest).map IngData.unit →
      ((processed ++ rest).map IngData.unit).Nodup →
      (rest.map (fun d => (nm, d))).foldl aggStep
          ((nm, Ingredient.from_dict nm d0) ::
            processed.map (fun d => (nm ++ "_" ++ d.unit, Ingredient.from_dict nm d)))
        = (nm, Ingredient.from_dict nm d0) ::
            (processed ++ rest).map (fun d => (nm ++ "_" ++ d.unit, Ingredient.from_dict nm d))
  | [], processed, _, _ => by simp
  | r :: rs, processed, h1, h2 => by
      have hget : dictGet nm ((nm, Ingredient.from_dict nm d0) ::
          processed.map (fun d => (nm ++ "_" ++ d.unit, Ingredient.from_dict nm d)))
          = some (Ingredient.from_dict nm d0) := by
        simp [dictGet]
      have hune : ¬ ((Ingredient.from_dict nm d0).unit = (Ingredient.from_dict nm r).unit) := by
        simp only [Ingredient.from_dict, Ingredient.make]
        intro h
        exact h1 (by simp [h])
      have hfresh : (nm ++ "_" ++ (Ingredient.from_dict nm r).unit) ∉ dictKeys
          ((nm, Ingredient.from_dict nm d0) ::
            processed.map (fun d => (nm ++ "_" ++ d.unit, Ingredient.from_dict nm d))) := by
        simp only [dictKeys, List.map_cons, List.map_map, List.mem_cons, List.mem_map,
          Function.comp]
        rintro (hofnm | ⟨d, hd, hkey⟩)
        · exact strAppendUnder_ne nm _ hofnm
        · have hdu : d.unit = r.unit := strAppend_right_inj (nm ++ "_") _ _ hkey
          have hsplit : ((processed.map IngData.unit) ++
              (r.unit :: rs.map IngData.unit)).Nodup := by simpa using h2
          rw [List.nodup_append] at hsplit
          exact hsplit.2.2 (hdu ▸ List.mem_map_of_mem IngData.unit hd) (by simp)
      have hstep : aggStep
          ((nm, Ingredient.from_dict nm d0) ::
            processed.map (fun d => (nm ++ "_" ++ d.unit, Ingredient.from_dict nm d))) (nm, r)
          = (nm, Ingredient.from_dict nm d0) ::
            ((processed ++ [r]).map (fun d => (nm ++ "_" ++ d.unit, Ingredient.from_dict nm d))) := by
        simp only [aggStep, hget]
        rw [if_neg hune, dictInsert_of_not_mem _ _ _ hfresh]
        simp [Ingredient.from_dict, Ingredient.make]
      rw [List.map_cons, List.foldl_cons, hstep]
      have h1' : d0.unit ∉ ((processed ++ [r]) ++ rs).map IngData.unit := by
        simpa using h1
      have h2' : (((processed ++ [r]) ++ rs).map IngData.unit).Nodup := by
        simpa using h2
      rw [aggFold_mismatch nm d0 rs (processed ++ [r]) h1' h2']
      simp

lemma aggregate_mismatch (nm : String) (ds : List IngData)
    (hdist : (ds.map IngData.unit).Nodup) :
    aggregate_ingredients (menuOfOccs nm ds) = ds.map (Ingredient.from_dict nm) := by
  cases ds with
  | nil => rfl
  | cons d0 rest =>
      unfold aggregate_ingredients
      rw [menuOccurrences_menuOfOccs, List.map_cons, List.foldl_cons]
      have hfirst : aggStep [] (nm, d0) = [(nm, Ingredient.from_dict nm d0)] := by
        simp [aggStep, dictGet, dictInsert]
      rw [hfirst]
      have hnodup : d0.unit ∉ rest.map IngData.unit ∧ (rest.map IngData.unit).Nodup := by
        rw [List.map_cons, List.nodup_cons] at hdist; exact hdist
      have h1 : d0.unit ∉ ([] ++ rest).map IngData.unit := by simpa using hnodup.1
      have h2 : (([] ++ rest).map IngData.unit).Nodup := by simpa using hnodup.2
      have hfold := aggFold_mismatch nm d0 rest [] h1 h2
      simp only [List.map_nil, List.nil_append] at hfold
      rw [hfold]
      simp [dictValues]

/-! ### Aggregation of repeated same-unit occurrences -/

lemma mergeField_scaleQ (m : ℚ) (o : Option ℚ) :
    mergeField (o.map (fun c => m * c)) o = o.map (fun c => (m + 1) * c) := by
  cases o with
  | none => simp [mergeField]
  | some c => simp [mergeField]; ring

lemma aggStep_same_unit (nm : String) (d : IngData) (m : ℚ) :
    aggStep [(nm, Ingredient.make nm (m * d.amount) d.unit
        (d.calories.map (fun c => m * c)) (d.protein.map (fun c => m * c))
        (d.fat.map (fun c => m * c)) (d.carbs.map (fun c => m * c)))] (nm, d)
      = [(nm, Ingredient.make nm ((m + 1) * d.amount) d.unit
        (d.calories.map (fun c => (m + 1) * c)) (d.protein.map (fun c => (m + 1) * c))
        (d.fat.map (fun c => (m + 1) * c)) (d.carbs.map (fun c => (m + 1) * c)))] := by
  have hm := mergeField_scaleQ m
  simp [aggStep, dictGet, dictInsert, Ingredient.from_dict, Ingredient.make, hm]
  ring

lemma aggFold_replicate (nm : String) (d : IngData) :
    ∀ (n : ℕ) (m : ℚ),
      (List.replicate n (nm, d)).foldl aggStep
          [(nm, Ingredient.make nm (m * d.amount) d.unit
            (d.calories.map (fun c => m * c)) (d.protein.map (fun c => m * c))
            (d.fat.map (fun c => m * c)) (d.carbs.map (fun c => m * c)))]
        = [(nm, Ingredient.make nm ((m + n) * d.amount) d.unit
            (d.calories.map (fun c => (m + n) * c)) (d.protein.map (fun c => (m + n) * c))
            (d.fat.map (fun c => (m + n) * c)) (d.carbs.map (fun c => (m + n) * c)))]
  | 0, m => by simp
  | n + 1, m => by
      rw [List.replicate_succ, List.foldl_cons, aggStep_same_unit nm d m,
        aggFold_replicate nm d n (m + 1)]
      have hc : m + 1 + (n : ℚ) = m + ((n : ℕ) + 1 : ℕ) := by push_cast; ring
      rw [hc]

lemma aggregate_replicate (nm : String) (d : IngData) (N : ℕ) (hN : 1 ≤ N) :
    aggregate_ingredients (menuOfOccs nm (List.replicate N d)) =
      [Ingredient.make nm ((N : ℚ) * d.amount) d.unit
        (d.calories.map (fun c => (N : ℚ) * c)) (d.protein.map (fun c => (N : ℚ) * c))
        (d.fat.map (fun c => (N : ℚ) * c)) (d.carbs.map (fun c => (N : ℚ) * c))] := by
  obtain ⟨n, rfl⟩ : ∃ n, N = n + 1 := ⟨N - 1, by omega⟩
  unfold aggregate_ingredients
  rw [menuOccurrences_menuOfOccs, List.map_replicate, List.replicate_succ, List.foldl_cons]
  have hfirst : aggStep [] (nm, d) = [(nm, Ingredient.make nm (1 * d.amount) d.unit
      (d.calories.map (fun c => 1 * c)) (d.protein.map (fun c => 1 * c))
      (d.fat.map (fun c => 1 * c)) (d.carbs.map (fun c => 1 * c)))] := by
    simp [aggStep, dictGet, dictInsert, Ingredient.from_dict, Ingredient.make]
  rw [hfirst, aggFold_replicate nm d n 1]
  have hc : (1 : ℚ) + (n : ℚ) = ((n + 1 : ℕ) : ℚ) := by push_cast; ring
  rw [hc]
  simp [dictValues]

/-- C4: when `aggregate_ingredients` meets an ingredient name already stored
with a different unit it does not merge but stores the incoming ingredient
under the composite `name_unit` key as a distinct row preserving its own unit
and values; N occurrences of one name with pairwise-distinct units give N
distinct rows (each exactly the deserialized occurrence), while N occurrences
of the same same-unit ingredient merge into a single row whose amount (and
each present macro) is N times the original. -/
theorem C4_unit_mismatch_vs_same_unit_merge (nm : String) (ds : List IngData)
    (d : IngData) (N : ℕ) (hdist : (ds.map IngData.unit).Nodup) (hN : 1 ≤ N) :
    aggregate_ingredients (menuOfOccs nm ds) = ds.map (Ingredient.from_dict nm)
    ∧ aggregate_ingredients (menuOfOccs nm (List.replicate N d)) =
        [Ingredient.make nm ((N : ℚ) * d.amount) d.unit
          (d.calories.map (fun c => (N : ℚ) * c)) (d.protein.map (fun c => (N : ℚ) * c))
          (d.fat.map (fun c => (N : ℚ) * c)) (d.carbs.map (fun c => (N : ℚ) * c))] :=
  ⟨aggregate_mismatch nm ds hdist, aggregate_replicate nm d N hN⟩

/-- Witness for C4 at the spec's own scenario: `milk 200 ml` and `milk 1 cup`
stay two rows; three same-unit `milk 200 ml` occurrences merge to 600 ml. -/
theorem C4_unit_mismatch_vs_same_unit_merge_witness :
    aggregate_ingredients (menuOfOccs "milk"
        [⟨200, "ml", none, none, none, none⟩, ⟨1, "cup", none, none, none, none⟩])
      = [⟨200, "ml", none, none, none, none⟩, ⟨1, "cup", none, none, none, none⟩].map
          (Ingredient.from_dict "milk")
    ∧ aggregate_ingredients (menuOfOccs "milk"
        (List.replicate 3 (⟨200, "ml", none, none, none, none⟩ : IngData)))
      = [Ingredient.make "milk"
          ((3 : ℕ) * ((⟨200, "ml", none, none, none, none⟩ : IngData)).amount)
          ((⟨200, "ml", none, none, none, none⟩ : IngData)).unit
          (((⟨200, "ml", none, none, none, none⟩ : IngData)).calories.map (fun c => (3 : ℕ) * c))
          (((⟨200, "ml", none, none, none, none⟩ : IngData)).protein.map (fun c => (3 : ℕ) * c))
          (((⟨200, "ml", none, none, none, none⟩ : IngData)).fat.map (fun c => (3 : ℕ) * c))
          (((⟨200, "ml", none, none, none, none⟩ : IngData)).carbs.map (fun c => (3 : ℕ) * c))] :=
  C4_unit_mismatch_vs_same_unit_merge "milk"
    [⟨200, "ml", none, none, none, none⟩, ⟨1, "cup", none, none, none, none⟩]
    ⟨200, "ml", none, none, none, none⟩ 3 (by decide) (by norm_num)

/-- C5: merging two same-unit occurrences treats each macro field
independently: both absent stays absent, one present keeps that value
unmodified, both present adds them (the code's `mergeField` coincides with
the spec-worded `specMerge` on every field). -/
theorem C5_macro_merge_absence_preserving (nm : String) (d₁ d₂ : IngData)
    (hu : d₁.unit = d₂.unit) :
    aggregate_ingredients (menuOfOccs nm [d₁, d₂]) =
      [Ingredient.make nm (d₁.amount + d₂.amount) d₁.unit
        (specMerge d₁.calories d₂.calories) (specMerge d₁.protein d₂.protein)
        (specMerge d₁.fat d₂.fat) (specMerge d₁.carbs d₂.carbs)] := by
  unfold aggregate_ingredients
  rw [menuOccurrences_menuOfOccs]
  simp only [List.map_cons, List.map_nil, List.foldl_cons, List.foldl_nil]
  have h1 : aggStep [] (nm, d₁) = [(nm, Ingredient.from_dict nm d₁)] := by
    simp [aggStep, dictGet, dictInsert]
  have h2 : aggStep [(nm, Ingredient.from_dict nm d₁)] (nm, d₂)
      = [(nm, Ingredient.make nm (d₁.amount + d₂.amount) d₁.unit
          (mergeField d₁.calories d₂.calories) (mergeField d₁.protein d₂.protein)
          (mergeField d₁.fat d₂.fat) (mergeField d₁.carbs d₂.carbs))] := by
    simp [aggStep, dictGet, dictInsert, Ingredient.from_dict, Ingredient.make, hu]
  rw [h1, h2]
  simp [dictValues, mergeField_eq_specMerge]

/-- Witness for C5: a `some/none` calories pair keeps the present value,
`none/none` protein stays absent, `some/some` fat adds. -/
theorem C5_macro_merge_absence_preserving_witness :
    aggregate_ingredients (menuOfOccs "oats"
        [⟨50, "g", some 190, none, some 3, none⟩, ⟨25, "g", none, none, some 2, some 16⟩]) =
      [Ingredient.make "oats" ((50 : ℚ) + 25) "g"
        (specMerge (some 190) none) (specMerge none none)
        (specMerge (some 3) (some 2)) (specMerge none (some 16))] :=
  C5_macro_merge_absence_preserving "oats"
    ⟨50, "g", some 190, none, some 3, none⟩ ⟨25, "g", none, none, some 2, some 16⟩ rfl

/-- C10: the aggregator keys its accumulator by the raw ingredient key from
the menu while the constructed `Ingredient` lower-cases its name, so the same
ingredient under two keys differing only in case (equal units) yields two
separate rows that carry the same lower-cased name. -/
theorem C10_case_sensitive_keys_lowercased_names (k₁ k₂ : String) (d₁ d₂ : IngData)
    (hk : k₁ ≠ k₂) (hlow : strLower k₁ = strLower k₂) (hu : d₁.unit = d₂.unit) :
    aggregate_ingredients
        [("meals", [("dish0", ⟨"", [(k₁, d₁)]⟩), ("dish1", ⟨"", [(k₂, d₂)]⟩)])] =
      [Ingredient.from_dict k₁ d₁, Ingredient.from_dict k₂ d₂]
    ∧ (Ingredient.from_dict k₁ d₁).name = strLower k₁
    ∧ (Ingredient.from_dict k₂ d₂).name = strLower k₁ := by
  refine ⟨?_, rfl, by simp [Ingredient.from_dict, Ingredient.make, hlow]⟩
  unfold aggregate_ingredients
  have hocc : menuOccurrences
      [("meals", [("dish0", ⟨"", [(k₁, d₁)]⟩), ("dish1", ⟨"", [(k₂, d₂)]⟩)])]
      = [(k₁, d₁), (k₂, d₂)] := by
    simp [menuOccurrences]
  rw [hocc]
  simp only [List.foldl_cons, List.foldl_nil]
  have h1 : aggStep [] (k₁, d₁) = [(k₁, Ingredient.from_dict k₁ d₁)] := by
    simp [aggStep, dictGet, dictInsert]
  have h2 : aggStep [(k₁, Ingredient.from_dict k₁ d₁)] (k₂, d₂)
      = [(k₁, Ingredient.from_dict k₁ d₁), (k₂, Ingredient.from_dict k₂ d₂)] := by
    simp [aggStep, dictGet, dictInsert, hk]
  rw [h1, h2]
  simp [dictValues]

/-- Witness for C10 at the claim's own example keys `Milk` and `milk`. -/
theorem C10_case_sensitive_keys_lowercased_names_witness :
    aggregate_ingredients
        [("meals", [("dish0", ⟨"", [("Milk", ⟨200, "ml", none, none, none, none⟩)]⟩),
                    ("dish1", ⟨"", [("milk", ⟨100, "ml", none, none, none, none⟩)]⟩)])] =
      [Ingredient.from_dict "Milk" ⟨200, "ml", none, none, none, none⟩,
       Ingredient.from_dict "milk" ⟨100, "ml", none, none, none, none⟩]
    ∧ (Ingredient.from_dict "Milk" (⟨200, "ml", none, none, none, none⟩ : IngData)).name
        = strLower "Milk"
    ∧ (Ingredient.from_dict "milk" (⟨100, "ml", none, none, none, none⟩ : IngData)).name
        = strLower "Milk" :=
  C10_case_sensitive_keys_lowercased_names "Milk" "milk"
    ⟨200, "ml", none, none, none, none⟩ ⟨100, "ml", none, none, none, none⟩
    (by decide) (by decide) rfl

/-! ### Serialization round trip (models.py) -/

lemma foldl_add_from_dict (l : List (String × Ingredient)) :
    ∀ (acc : Course),
      (dictKeys l).Nodup →
      (∀ k ∈ dictKeys l, k ∉ dictKeys acc.ingredients) →
      (∀ p ∈ l, p.1 = p.2.name ∧ p.2.name = strLower p.2.name) →
      (l.map (fun p => (p.1, p.2.to_dict))).foldl
          (fun c p => c.add_ingredient (Ingredient.from_dict p.1 p.2)) acc
        = { acc with ingredients := acc.ingredients ++ l } := by
  induction l with
  | nil => intro acc _ _ _; simp
  | cons q rest ih =>
      intro acc hnd hfresh hwf
      obtain ⟨k, i⟩ := q
      have hwfq := hwf (k, i) (by simp)
      have hki : k = i.name := hwfq.1
      have hlow : i.name = strLower i.name := hwfq.2
      have hcons : (k :: dictKeys rest).Nodup := by simpa [dictKeys] using hnd
      have hknotin : k ∉ dictKeys rest := (List.nodup_cons.mp hcons).1
      have hnd' : (dictKeys rest).Nodup := (List.nodup_cons.mp hcons).2
      have hfd : Ingredient.from_dict k i.to_dict = i := by
        obtain ⟨n, a, u, c1, c2, c3, c4⟩ := i
        simp only [Ingredient.from_dict, Ingredient.make, Ingredient.to_dict]
        have hki2 : k = n := hki
        have hlow2 : n = strLower n := hlow
        rw [hki2, ← hlow2]
      have hstep : acc.add_ingredient i
          = { acc with ingredients := acc.ingredients ++ [(k, i)] } := by
        simp only [Course.add_ingredient]
        rw [← hki, dictInsert_of_not_mem k i acc.ingredients (hfresh k (by simp [dictKeys]))]
      have hfresh' : ∀ k' ∈ dictKeys rest,
          k' ∉ dictKeys ({ acc with ingredients := acc.ingredients ++ [(k, i)]} : Course).ingredients := by
        intro k' hk'
        have hk'k : k' ≠ k := fun he => hknotin (he ▸ hk')
        have hic : k' ∉ dictKeys acc.ingredients :=
          hfresh k' (by simp [dictKeys] at hk' ⊢; exact Or.inr hk')
        show k' ∉ dictKeys (acc.ingredients ++ [(k, i)])
        have hkeysapp : dictKeys (acc.ingredients ++ [(k, i)])
            = dictKeys acc.ingredients ++ [k] := by simp [dictKeys]
        rw [hkeysapp]
        simp only [List.mem_append, List.mem_singleton]
        rintro (hin | he)
        · exact hic hin
        · exact hk'k he
      have hwf' : ∀ p ∈ rest, p.1 = p.2.name ∧ p.2.name = strLower p.2.name := by
        intro p hp; exact hwf p (by simp [hp])
      rw [List.map_cons, List.foldl_cons, hfd, hstep, ih _ hnd' hfresh' hwf']
      simp

/-- C8: serializing a `Course` with `to_dict` and deserializing with
`from_dict` (given back the same name and category) reproduces the course
exactly — same name, category, description, and every ingredient's amount,
unit and macro fields, absent fields staying absent — for any course
satisfying the model's constructor invariants (lower-cased names, ingredient
keys equal to their ingredient's name, unique keys). -/
theorem C8_course_roundtrip (c : Course)
    (h1 : c.name = strLower c.name)
    (h2 : c.course_type = strLower c.course_type)
    (h3 : (dictKeys c.ingredients).Nodup)
    (h4 : ∀ p ∈ c.ingredients, p.1 = p.2.name ∧ p.2.name = strLower p.2.name) :
    Course.from_dict c.name c.course_type c.to_dict = c := by
  unfold Course.from_dict Course.to_dict
  rw [foldl_add_from_dict c.ingredients
    (Course.make c.name c.course_type c.description [])
    h3 (by simp [Course.make, dictKeys]) h4]
  show Course.mk (strLower c.name) (strLower c.course_type) c.description
      ([] ++ c.ingredients) = c
  rw [List.nil_append, ← h1, ← h2]

/-- Witness for C8 on a concrete two-ingredient course. -/
theorem C8_course_roundtrip_witness :
    Course.from_dict
        (Course.mk "eggs" "breakfast" "Scrambled eggs"
          [("eggs", ⟨"eggs", 2, "pieces", some 140, some 12, some 10, some 1⟩),
           ("butter", ⟨"butter", 10, "g", some 75, some 0, some 8, none⟩)]).name
        (Course.mk "eggs" "breakfast" "Scrambled eggs"
          [("eggs", ⟨"eggs", 2, "pieces", some 140, some 12, some 10, some 1⟩),
           ("butter", ⟨"butter", 10, "g", some 75, some 0, some 8, none⟩)]).course_type
        (Course.mk "eggs" "breakfast" "Scrambled eggs"
          [("eggs", ⟨"eggs", 2, "pieces", some 140, some 12, some 10, some 1⟩),
           ("butter", ⟨"butter", 10, "g", some 75, some 0, some 8, none⟩)]).to_dict
      = Course.mk "eggs" "breakfast" "Scrambled eggs"
          [("eggs", ⟨"eggs", 2, "pieces", some 140, some 12, some 10, some 1⟩),
           ("butter", ⟨"butter", 10, "g", some 75, some 0, some 8, none⟩)] :=
  C8_course_roundtrip _ (by decide) (by decide) (by decide) (by decide)

/-! ### Macro summarizer (macros.py) -/

/-- A running four-field macro total. -/
structure MacroTotals where
  calories : ℚ
  protein : ℚ
  fat : ℚ
  carbs : ℚ
deriving DecidableEq, Repr

/-- One entry of the `per_day` list: the `day_index` plus the day totals. -/
structure DayMacros where
  day_index : ℕ
  calories : ℚ
  protein : ℚ
  fat : ℚ
  carbs : ℚ
deriving DecidableEq, Repr

/-- `MacroCalculator._calculate_dish_macros`: sum the four fields over the
dish's ingredients, counting a field only when present and not `None`. -/
def calculate_dish_macros (dish : CourseData) : MacroTotals :=
  dish.ingridients.foldl
    (fun m p =>
      { calories := m.calories + p.2.calories.getD 0,
        protein := m.protein + p.2.protein.getD 0,
        fat := m.fat + p.2.fat.getD 0,
        carbs := m.carbs + p.2.carbs.getD 0 })
    ⟨0, 0, 0, 0⟩

/-- `MacroCalculator._organize_by_days`: drop the `nutrition_totals` key,
determine the day count as the maximum dish count over the categories, and
pair position `i` across all categories into day `i`. -/
def organize_by_days (menu : Menu) : List (List CourseData) :=
  let menu' := menu.filter (fun e => e.1 ≠ "nutrition_totals")
  if menu' = [] then []
  else
    let max_dishes := (menu'.map (fun e => e.2.length)).foldl max 0
    (List.range max_dishes).map (fun day =>
      menu'.filterMap (fun e => (e.2[day]?).map Prod.snd))

/-- The per-day accumulation of dish totals (the inner loop of
`calculate_plan_macros`). -/
def dayTotals (dishes : List CourseData) : MacroTotals :=
  dishes.foldl
    (fun t dish =>
      ⟨t.calories + (calculate_dish_macros dish).calories,
       t.protein + (calculate_dish_macros dish).protein,
       t.fat + (calculate_dish_macros dish).fat,
       t.carbs + (calculate_dish_macros dish).carbs⟩)
    ⟨0, 0, 0, 0⟩

/-- `MacroCalculator.calculate_plan_macros`: per-day totals (with
`day_index`) and the overall accumulation of all day totals. -/
def calculate_plan_macros (menu : Menu) : List DayMacros × MacroTotals :=
  let days_data := organize_by_days menu
  let per_day := days_data.enum.map (fun p =>
    let t := dayTotals p.2
    (⟨p.1, t.calories, t.protein, t.fat, t.carbs⟩ : DayMacros))
  let overall := per_day.foldl
    (fun o d => (⟨o.calories + d.calories, o.protein + d.protein,
                  o.fat + d.fat, o.carbs + d.carbs⟩ : MacroTotals))
    ⟨0, 0, 0, 0⟩
  (per_day, overall)

/-- Modelled from the spec: the four macro sums of a dish as plain list
sums, an absent field counting as 0. -/
def specDishField (f : IngData → Option ℚ) (dish : CourseData) : ℚ :=
  (dish.ingridients.map (fun p => (f p.2).getD 0)).sum

/-- Modelled from the spec: day `i` of a menu sums, over every category,
the macro field of that category's position-`i` dish; categories with fewer
than `i+1` dishes contribute nothing. -/
def specDayField (f : IngData → Option ℚ) (menu : Menu) (i : ℕ) : ℚ :=
  (menu.map (fun e => ((e.2[i]?).map (fun d => specDishField f d.2)).getD 0)).sum

lemma foldl_macro_add {α : Type} (f1 f2 f3 f4 : α → ℚ) (l : List α) :
    ∀ t : MacroTotals,
      l.foldl (fun m x => ⟨m.calories + f1 x, m.protein + f2 x,
          m.fat + f3 x, m.carbs + f4 x⟩) t
        = ⟨t.calories + (l.map f1).sum, t.protein + (l.map f2).sum,
           t.fat + (l.map f3).sum, t.carbs + (l.map f4).sum⟩ := by
  induction l with
  | nil => intro t; cases t; simp
  | cons x xs ih => intro t; rw [List.foldl_cons, ih]; cases t; simp [add_assoc]

lemma calculate_dish_macros_eq (dish : CourseData) :
    calculate_dish_macros dish =
      ⟨specDishField IngData.calories dish, specDishField IngData.protein dish,
       specDishField IngData.fat dish, specDishField IngData.carbs dish⟩ := by
  have h := foldl_macro_add (fun p : String × IngData => p.2.calories.getD 0)
    (fun p => p.2.protein.getD 0) (fun p => p.2.fat.getD 0) (fun p => p.2.carbs.getD 0)
    dish.ingridients ⟨0, 0, 0, 0⟩
  unfold calculate_dish_macros specDishField
  simpa using h

lemma dayTotals_eq (dishes : List CourseData) :
    dayTotals dishes
      = ⟨(dishes.map (fun d => (calculate_dish_macros d).calories)).sum,
         (dishes.map (fun d => (calculate_dish_macros d).protein)).sum,
         (dishes.map (fun d => (calculate_dish_macros d).fat)).sum,
         (dishes.map (fun d => (calculate_dish_macros d).carbs)).sum⟩ := by
  have h := foldl_macro_add (fun d => (calculate_dish_macros d).calories)
    (fun d => (calculate_dish_macros d).protein)
    (fun d => (calculate_dish_macros d).fat)
    (fun d => (calculate_dish_macros d).carbs)
    dishes ⟨0, 0, 0, 0⟩
  unfold dayTotals
  simpa using h

lemma menu_filter_clean (menu : Menu) (hclean : "nutrition_totals" ∉ menu.map Prod.fst) :
    menu.filter (fun e => e.1 ≠ "nutrition_totals") = menu := by
  apply List.filter_eq_self.mpr
  intro a ha
  have hne : a.1 ≠ "nutrition_totals" := by
    intro h; exact hclean (h ▸ List.mem_map_of_mem Prod.fst ha)
  simpa using hne

lemma le_foldl_max : ∀ (l : List ℕ) (a : ℕ), a ≤ l.foldl max a
  | [], a => le_refl a
  | y :: ys, a => le_trans (le_max_left a y) (le_foldl_max ys (max a y))

lemma mem_le_foldl_max : ∀ (l : List ℕ) (a x : ℕ), x ∈ l → x ≤ l.foldl max a
  | [], _, _, hx => absurd hx (List.not_mem_nil _)
  | y :: ys, a, x, hx => by
      rcases List.mem_cons.mp hx with rfl | hx'
      · exact le_trans (le_max_right a x) (le_foldl_max ys (max a x))
      · exact mem_le_foldl_max ys (max a y) x hx'

lemma foldl_max_mem : ∀ (l : List ℕ) (a : ℕ), l.foldl max a = a ∨ l.foldl max a ∈ l
  | [], a => Or.inl rfl
  | y :: ys, a => by
      rcases foldl_max_mem ys (max a y) with h | h
      · rcases max_cases a y with ⟨hmax, _⟩ | ⟨hmax, _⟩
        · exact Or.inl (by rw [List.foldl_cons, h, hmax])
        · exact Or.inr (by rw [List.foldl_cons, h, hmax]; exact List.mem_cons_self y ys)
      · exact Or.inr (List.mem_cons_of_mem y h)

lemma filterMap_day_sum (f : IngData → Option ℚ) (g : CourseData → ℚ)
    (hg : ∀ dish, g dish = specDishField f dish) (i : ℕ) :
    ∀ menu : Menu,
      ((menu.filterMap (fun e => (e.2[i]?).map Prod.snd)).map g).sum
        = specDayField f menu i
  | [] => by simp [specDayField]
  | e :: rest => by
      have ih := filterMap_day_sum f g hg i rest
      unfold specDayField at ih ⊢
      cases hgi : e.2[i]? with
      | none => simp [List.filterMap_cons, hgi, ih]
      | some d => simp [List.filterMap_cons, hgi, ih, hg]

lemma organize_by_days_clean (menu : Menu)
    (hclean : "nutrition_totals" ∉ menu.map Prod.fst) :
    organize_by_days menu
      = if menu = [] then []
        else (List.range ((menu.map (fun e => e.2.length)).foldl max 0)).map
          (fun day => menu.filterMap (fun e => (e.2[day]?).map Prod.snd)) := by
  unfold organize_by_days
  simp only [menu_filter_clean menu hclean]

lemma per_day_length (menu : Menu) (hclean : "nutrition_totals" ∉ menu.map Prod.fst) :
    (calculate_plan_macros menu).1.length
      = if menu = [] then 0 else (menu.map (fun e => e.2.length)).foldl max 0 := by
  show ((organize_by_days menu).enum.map _).length = _
  rw [List.length_map, List.enum_length, organize_by_days_clean menu hclean]
  by_cases hm : menu = [] <;> simp [hm]

lemma per_day_get (menu : Menu) (hclean : "nutrition_totals" ∉ menu.map Prod.fst)
    (i : ℕ) (hi : i < (calculate_plan_macros menu).1.length) :
    (calculate_plan_macros menu).1.get? i
      = some ⟨i, specDayField IngData.calories menu i, specDayField IngData.protein menu i,
             specDayField IngData.fat menu i, specDayField IngData.carbs menu i⟩ := by
  have hm : menu ≠ [] := by
    intro h
    rw [per_day_length menu hclean, if_pos h] at hi
    omega
  have hiL : i < (menu.map (fun e => e.2.length)).foldl max 0 := by
    rw [per_day_length menu hclean, if_neg hm] at hi
    exact hi
  have horg : (organize_by_days menu).get? i
      = some (menu.filterMap (fun e => (e.2[i]?).map Prod.snd)) := by
    rw [organize_by_days_clean menu hclean, if_neg hm, List.get?_map,
      List.get?_range hiL]
    rfl
  have hcal : ∀ dish, (calculate_dish_macros dish).calories
      = specDishField IngData.calories dish := fun dish => by
    rw [calculate_dish_macros_eq]
  have hprot : ∀ dish, (calculate_dish_macros dish).protein
      = specDishField IngData.protein dish := fun dish => by
    rw [calculate_dish_macros_eq]
  have hfat : ∀ dish, (calculate_dish_macros dish).fat
      = specDishField IngData.fat dish := fun dish => by
    rw [calculate_dish_macros_eq]
  have hcarb : ∀ dish, (calculate_dish_macros dish).carbs
      = specDishField IngData.carbs dish := fun dish => by
    rw [calculate_dish_macros_eq]
  show ((organize_by_days menu).enum.map _).get? i = _
  rw [List.get?_map, List.get?_enum, horg]
  simp only [Option.map_some', dayTotals_eq]
  simp only [Option.some.injEq, DayMacros.mk.injEq, true_and]
  exact ⟨filterMap_day_sum IngData.calories _ hcal i menu,
         filterMap_day_sum IngData.protein _ hprot i menu,
         filterMap_day_sum IngData.fat _ hfat i menu,
         filterMap_day_sum IngData.carbs _ hcarb i menu⟩

lemma overall_eq (menu : Menu) :
    (calculate_plan_macros menu).2
      = ⟨((calculate_plan_macros menu).1.map DayMacros.calories).sum,
         ((calculate_plan_macros menu).1.map DayMacros.protein).sum,
         ((calculate_plan_macros menu).1.map DayMacros.fat).sum,
         ((calculate_plan_macros menu).1.map DayMacros.carbs).sum⟩ := by
  have h := foldl_macro_add DayMacros.calories DayMacros.protein DayMacros.fat
    DayMacros.carbs (calculate_plan_macros menu).1 ⟨0, 0, 0, 0⟩
  show (calculate_plan_macros menu).1.foldl
      (fun o d => (⟨o.calories + d.calories, o.protein + d.protein,
        o.fat + d.fat, o.carbs + d.carbs⟩ : MacroTotals)) ⟨0, 0, 0, 0⟩ = _
  simpa using h

/-- C6: for a menu without the `nutrition_totals` side-car,
`calculate_plan_macros` returns `per_day` whose length is the maximum recipe
count over any single category (every category's count is a lower bound and
the length is zero or attained by some category); day `i` carries `day_index
i` and sums, over every category, the four macro fields of that category's
position-`i` dish (absent fields count 0, shorter categories contribute
nothing); and the overall totals are the sums of all per-day totals. -/
theorem C6_plan_macros_positional (menu : Menu) (i : ℕ)
    (hclean : "nutrition_totals" ∉ menu.map Prod.fst)
    (hi : i < (calculate_plan_macros menu).1.length) :
    ((∀ e ∈ menu, e.2.length ≤ (calculate_plan_macros menu).1.length)
      ∧ ((calculate_plan_macros menu).1.length = 0
         ∨ ∃ e ∈ menu, e.2.length = (calculate_plan_macros menu).1.length))
    ∧ (calculate_plan_macros menu).1.get? i
        = some ⟨i, specDayField IngData.calories menu i,
            specDayField IngData.protein menu i,
            specDayField IngData.fat menu i, specDayField IngData.carbs menu i⟩
    ∧ (calculate_plan_macros menu).2
        = ⟨((calculate_plan_macros menu).1.map DayMacros.calories).sum,
           ((calculate_plan_macros menu).1.map DayMacros.protein).sum,
           ((calculate_plan_macros menu).1.map DayMacros.fat).sum,
           ((calculate_plan_macros menu).1.map DayMacros.carbs).sum⟩ := by
  refine ⟨⟨?_, ?_⟩, per_day_get menu hclean i hi, overall_eq menu⟩
  · intro e he
    rw [per_day_length menu hclean, if_neg (by rintro rfl; cases he)]
    exact mem_le_foldl_max _ 0 _ (List.mem_map_of_mem (fun e => e.2.length) he)
  · rw [per_day_length menu hclean]
    by_cases hm : menu = []
    · exact Or.inl (by rw [if_pos hm])
    · rw [if_neg hm]
      rcases foldl_max_mem (menu.map (fun e => e.2.length)) 0 with h0 | hmem
      · exact Or.inl h0
      · obtain ⟨e, he, hlen⟩ := List.mem_map.mp hmem
        exact Or.inr ⟨e, he, hlen⟩

/-- The spec's macro scenario: breakfast has two dishes, lunch one. -/
def scenarioMenu : Menu :=
  [("breakfast",
      [("eggs", ⟨"", [("eggs", ⟨2, "pieces", some 140, none, none, none⟩)]⟩),
       ("oats", ⟨"", [("oats", ⟨50, "g", some 190, none, none, none⟩)]⟩)]),
   ("lunch",
      [("salad", ⟨"", [("lettuce", ⟨100, "g", some 15, none, none, none⟩)]⟩)])]

/-- Witness for C6 at the spec's scenario menu, day 0. -/
theorem C6_plan_macros_positional_witness :
    ((∀ e ∈ scenarioMenu, e.2.length ≤ (calculate_plan_macros scenarioMenu).1.length)
      ∧ ((calculate_plan_macros scenarioMenu).1.length = 0
         ∨ ∃ e ∈ scenarioMenu, e.2.length = (calculate_plan_macros scenarioMenu).1.length))
    ∧ (calculate_plan_macros scenarioMenu).1.get? 0
        = some ⟨0, specDayField IngData.calories scenarioMenu 0,
            specDayField IngData.protein scenarioMenu 0,
            specDayField IngData.fat scenarioMenu 0,
            specDayField IngData.carbs scenarioMenu 0⟩
    ∧ (calculate_plan_macros scenarioMenu).2
        = ⟨((calculate_plan_macros scenarioMenu).1.map DayMacros.calories).sum,
           ((calculate_plan_macros scenarioMenu).1.map DayMacros.protein).sum,
           ((calculate_plan_macros scenarioMenu).1.map DayMacros.fat).sum,
           ((calculate_plan_macros scenarioMenu).1.map DayMacros.carbs).sum⟩ :=
  C6_plan_macros_positional scenarioMenu 0 (by decide) (by decide)

/-! ### Meal planner (planner.py) -/

instance : Inhabited Course := ⟨⟨"", "", "", []⟩⟩

/-- The state of the module-level `random` source: an arbitrary stream of
draws and the position of the next draw. -/
structure RState where
  stream : ℕ → ℕ
  pos : ℕ

/-- `random.choice` on a non-empty list: pick the index the stream yields
(reduced mod the pool size) and advance the stream. -/
def rchoice (r : RState) (l : List Course) : Course × RState :=
  (l.getD (r.stream r.pos % l.length) default, ⟨r.stream, r.pos + 1⟩)

/-- The per-category mutable state during the day loop of
`MealPlanner.generate_plan` (planner.py lines 49-89), plus a ghost `trace`
recording, in order, the `(category, recipe-name)` of every menu insertion
performed at line 80 — instrumentation only, used to state how many times a
recipe is selected into the plan. -/
structure DayState where
  type_available : List Course
  catMenu : List (String × CourseData)
  used_courses : List String
  repeat_counts : List (String × ℕ)
  r : RState
  trace : List (String × String)

/-- Planner lines 78-89: scale the selected course, insert it into the
category's menu, and update the `no_reuse` / `max_repeats` bookkeeping.
`tya` is the pool the course was drawn from. -/
def insertCourse (course_type : String) (no_reuse : Bool) (max_repeats : Option ℕ)
    (servings : ℚ) (tya : List Course) (course : Course) (r : RState)
    (s : DayState) : DayState :=
  { type_available := if no_reuse then tya.erase course else tya,
    catMenu := dictInsert course.name (course.scale_servings servings).to_dict s.catMenu,
    used_courses := if no_reuse then course.name :: s.used_courses else s.used_courses,
    repeat_counts :=
      match max_repeats with
      | some _ =>
          dictInsert (course.course_type ++ ":" ++ course.name)
            ((dictGet (course.course_type ++ ":" ++ course.name) s.repeat_counts).getD 0 + 1)
            s.repeat_counts
      | none => s.repeat_counts,
    r := r,
    trace := s.trace ++ [(course_type, course.name)] }

/-- One iteration of the day loop (planner.py lines 51-89), with
`interactive=False`: skip or refill an empty pool, draw, enforce the
repeat cap with a single redraw, insert. -/
def dayStep (available_courses : List Course) (course_type : String)
    (no_reuse : Bool) (max_repeats : Option ℕ) (servings : ℚ)
    (s : DayState) : DayState :=
  if s.type_available = [] ∧ no_reuse = true then s
  else
    let tya0 := if s.type_available = [] then available_courses else s.type_available
    let cr0 := rchoice s.r tya0
    match max_repeats with
    | some k =>
        if k ≤ (dictGet (cr0.1.course_type ++ ":" ++ cr0.1.name) s.repeat_counts).getD 0 then
          let tya1 := tya0.erase cr0.1
          if tya1 = [] then
            if no_reuse = true then
              { s with type_available := tya1, r := cr0.2 }
            else
              let cr1 := rchoice cr0.2 available_courses
              insertCourse course_type no_reuse max_repeats servings
                available_courses cr1.1 cr1.2 s
          else
            let cr1 := rchoice cr0.2 tya1
            insertCourse course_type no_reuse max_repeats servings tya1 cr1.1 cr1.2 s
        else insertCourse course_type no_reuse max_repeats servings tya0 cr0.1 cr0.2 s
    | none => insertCourse course_type no_reuse max_repeats servings tya0 cr0.1 cr0.2 s

/-- The whole-plan state threaded through the category loop. -/
structure PlanState where
  menu : Menu
  used_courses : List String
  repeat_counts : List (String × ℕ)
  r : RState
  trace : List (String × String)

/-- Planner lines 44-89: process one `(course_type, available_courses)`
catalog entry — skip it entirely when the candidate list is empty,
otherwise run the day loop and store the category sub-dictionary. -/
def planCategory (days : ℕ) (servings : ℚ) (no_reuse : Bool) (max_repeats : Option ℕ)
    (st : PlanState) (course_type : String) (available_courses : List Course) : PlanState :=
  if available_courses = [] then st
  else
    let fin := (dayStep available_courses course_type no_reuse max_repeats servings)^[days]
      ⟨available_courses, [], st.used_courses, st.repeat_counts, st.r, st.trace⟩
    { menu := dictInsert course_type fin.catMenu st.menu,
      used_courses := fin.used_courses,
      repeat_counts := fin.repeat_counts,
      r := fin.r,
      trace := fin.trace }

/-- `MealPlanner._apply_filters` (planner.py lines 93-115): `include`
restricts to the named recipes, then `exclude` removes the named recipes;
an empty list models a `None`/empty (falsy) filter. -/
def apply_filters (courses_by_type : List (String × List Course))
    (inc exc : List String) : List (String × List Course) :=
  courses_by_type.map (fun e =>
    (e.1,
      let f1 := if inc ≠ [] then e.2.filter (fun c => c.name ∈ inc.map strLower) else e.2
      if exc ≠ [] then f1.filter (fun c => c.name ∉ exc.map strLower) else f1))

/-- Planner lines 34-38: the effective catalog after filtering (the filter
pass runs only when at least one filter is truthy). -/
def effectiveCatalog (courses_by_type : List (String × List Course))
    (inc exc : List String) : List (String × List Course) :=
  if inc ≠ [] ∨ exc ≠ [] then apply_filters courses_by_type inc exc else courses_by_type

/-- `MealPlanner.generate_plan` with `interactive=False`, already seeded:
fold the category loop over the effective catalog. The returned `PlanState`
carries the menu plus the bookkeeping and the ghost selection trace. -/
def generate_plan_run (courses_by_type : List (String × List Course)) (days : ℕ)
    (servings : ℚ) (no_reuse : Bool) (max_repeats : Option ℕ)
    (inc exc : List String) (r : RState) : PlanState :=
  (effectiveCatalog courses_by_type inc exc).foldl
    (fun st e => planCategory days servings no_reuse max_repeats st e.1 e.2)
    ⟨[], [], [], r, []⟩

/-- `MealPlanner.generate_plan` with `interactive=False`: when a seed is
given, `random.seed(seed)` replaces the module-level random state with a
stream determined by the seed alone (`seedStream`), discarding the prior
state `r`; generation then runs from that state. -/
def generate_plan (courses_by_type : List (String × List Course)) (days : ℕ)
    (servings : ℚ) (no_reuse : Bool) (max_repeats : Option ℕ)
    (seed : Option ℕ) (seedStream : ℕ → ℕ → ℕ)
    (inc exc : List String) (r : RState) : Menu :=
  (generate_plan_run courses_by_type days servings no_reuse max_repeats inc exc
    (match seed with
     | some s => ⟨seedStream s, 0⟩
     | none => r)).menu

/-- C3: for a fixed catalog and a fixed (non-`None`) seed, two
non-interactive `generate_plan` calls with identical parameters return
identical menus: the seeding step replaces the random state before any
draw, so the result does not depend on the prior random state — the only
inputs are the catalog, the parameters, and the seed. -/
theorem C3_seeded_determinism (cbt : List (String × List Course)) (days : ℕ)
    (servings : ℚ) (no_reuse : Bool) (max_repeats : Option ℕ) (s : ℕ)
    (seedStream : ℕ → ℕ → ℕ) (inc exc : List String) (r₁ r₂ : RState) :
    generate_plan cbt days servings no_reuse max_repeats (some s) seedStream inc exc r₁
      = generate_plan cbt days servings no_reuse max_repeats (some s) seedStream inc exc r₂ :=
  rfl

/-- Counterexample to C1 as stated: catalog `lunch = {a, b}`, `days = 3`,
`max_repeats = 1`, draws a, b, a — the third draw hits the cap, `a` is
removed and the single redraw lands on `b`, which is inserted without its
own count being re-checked, so `(lunch, b)` is selected twice, exceeding
the bound `k = 1`. -/
theorem C1_repeat_bound_counterexample :
    ¬ (List.count ("lunch", "b")
        (generate_plan_run [("lunch", [⟨"a", "lunch", "", []⟩, ⟨"b", "lunch", "", []⟩])]
          3 1 false (some 1) [] [] ⟨fun n => if n = 1 then 1 else 0, 0⟩).trace ≤ 1) := by
  decide

/-- C1 (amended): when `max_repeats = k` is set and the proposed recipe has
already been placed `k` times, it is removed from the pool and one redraw
is made (skipping or refilling per the `no_reuse` policy if removal empties
the pool) — but the redrawn recipe is inserted without re-checking its own
count, so only a recipe whose count is still below `k` at proposal time is
guaranteed to be inserted directly with its placement count staying ≤ k;
a redraw can push a pair past the bound. -/
theorem C1_repeat_bound_amended (avail : List Course) (ct : String)
    (no_reuse : Bool) (k : ℕ) (sv : ℚ) (s : DayState) (c0 : Course) (key : String)
    (hc0 : c0 = (rchoice s.r (if s.type_available = [] then avail else s.type_available)).1)
    (hkey : key = c0.course_type ++ ":" ++ c0.name)
    (hskip : ¬ (s.type_available = [] ∧ no_reuse = true))
    (hlt : (dictGet key s.repeat_counts).getD 0 < k) :
    (dayStep avail ct no_reuse (some k) sv s).trace = s.trace ++ [(ct, c0.name)]
    ∧ (dayStep avail ct no_reuse (some k) sv s).repeat_counts
        = dictInsert key ((dictGet key s.repeat_counts).getD 0 + 1) s.repeat_counts
    ∧ (dictGet key s.repeat_counts).getD 0 + 1 ≤ k := by
  subst hkey
  subst hc0
  unfold dayStep
  rw [if_neg hskip]
  simp only []
  rw [if_neg (not_le.mpr hlt)]
  simp only [insertCourse]
  exact ⟨trivial, trivial, hlt⟩

/-- Witness for the amended C1: a fresh state with two courses; the first
draw is under the cap and is inserted directly, count 1 ≤ 1. -/
theorem C1_repeat_bound_amended_witness :
    (dayStep [⟨"a", "lunch", "", []⟩, ⟨"b", "lunch", "", []⟩] "lunch" false (some 1) 1
        ⟨[⟨"a", "lunch", "", []⟩, ⟨"b", "lunch", "", []⟩], [], [], [],
          ⟨fun _ => 0, 0⟩, []⟩).trace
      = [] ++ [("lunch", "a")]
    ∧ (dayStep [⟨"a", "lunch", "", []⟩, ⟨"b", "lunch", "", []⟩] "lunch" false (some 1) 1
        ⟨[⟨"a", "lunch", "", []⟩, ⟨"b", "lunch", "", []⟩], [], [], [],
          ⟨fun _ => 0, 0⟩, []⟩).repeat_counts
      = dictInsert "lunch:a" ((dictGet "lunch:a" ([] : List (String × ℕ))).getD 0 + 1) []
    ∧ (dictGet "lunch:a" ([] : List (String × ℕ))).getD 0 + 1 ≤ 1 :=
  C1_repeat_bound_amended [⟨"a", "lunch", "", []⟩, ⟨"b", "lunch", "", []⟩] "lunch"
    false 1 1
    ⟨[⟨"a", "lunch", "", []⟩, ⟨"b", "lunch", "", []⟩], [], [], [], ⟨fun _ => 0, 0⟩, []⟩
    ⟨"a", "lunch", "", []⟩ "lunch:a" (by decide) rfl (by decide) (by decide)

lemma rchoice_mem (r : RState) (l : List Course) (h : l ≠ []) : (rchoice r l).1 ∈ l := by
  unfold rchoice
  have hlt : r.stream r.pos % l.length < l.length :=
    Nat.mod_lt _ (List.length_pos.mpr h)
  simp only
  rw [List.getD_eq_getElem _ _ hlt]
  exact List.getElem_mem hlt

lemma dayStep_no_reuse_cases (avail : List Course) (ct : String) (k? : Option ℕ)
    (sv : ℚ) (s : DayState) :
    ((dayStep avail ct true k? sv s).trace = s.trace
      ∧ (dayStep avail ct true k? sv s).type_available.Sublist s.type_available)
    ∨ ∃ (c : Course) (tya : List Course), c ∈ tya ∧ tya.Sublist s.type_available
        ∧ (dayStep avail ct true k? sv s).type_available = tya.erase c
        ∧ (dayStep avail ct true k? sv s).trace = s.trace ++ [(ct, c.name)] := by
  by_cases hempty : s.type_available = []
  · left
    have hd : dayStep avail ct true k? sv s = s := by
      unfold dayStep
      rw [if_pos ⟨hempty, rfl⟩]
    rw [hd]
    exact ⟨rfl, List.Sublist.refl _⟩
  · have hne : ¬ (s.type_available = [] ∧ true = true) := fun h => hempty h.1
    have htya0 : (if s.type_available = [] then avail else s.type_available)
        = s.type_available := if_neg hempty
    cases k? with
    | none =>
        right
        have heq : dayStep avail ct true none sv s
            = insertCourse ct true none sv s.type_available
                (rchoice s.r s.type_available).1 (rchoice s.r s.type_available).2 s := by
          unfold dayStep
          rw [if_neg hne, htya0]
        refine ⟨(rchoice s.r s.type_available).1, s.type_available,
          rchoice_mem _ _ hempty, List.Sublist.refl _, ?_, ?_⟩ <;>
          rw [heq] <;> simp [insertCourse]
    | some k =>
        by_cases hcap : k ≤ (dictGet ((rchoice s.r s.type_available).1.course_type ++ ":"
            ++ (rchoice s.r s.type_available).1.name) s.repeat_counts).getD 0
        · by_cases h1e : s.type_available.erase (rchoice s.r s.type_available).1 = []
          · left
            have heq : dayStep avail ct true (some k) sv s
                = { s with
                    type_available := s.type_available.erase (rchoice s.r s.type_available).1,
                    r := (rchoice s.r s.type_available).2 } := by
              unfold dayStep
              rw [if_neg hne, htya0]
              simp only [if_pos hcap, if_pos h1e]
              simp
            rw [heq]
            exact ⟨rfl, List.erase_sublist _ _⟩
          · right
            have heq : dayStep avail ct true (some k) sv s
                = insertCourse ct true (some k) sv
                    (s.type_available.erase (rchoice s.r s.type_available).1)
                    (rchoice (rchoice s.r s.type_available).2
                      (s.type_available.erase (rchoice s.r s.type_available).1)).1
                    (rchoice (rchoice s.r s.type_available).2
                      (s.type_available.erase (rchoice s.r s.type_available).1)).2 s := by
              unfold dayStep
              rw [if_neg hne, htya0]
              simp only [if_pos hcap, if_neg h1e]
            refine ⟨(rchoice (rchoice s.r s.type_available).2
                (s.type_available.erase (rchoice s.r s.type_available).1)).1,
              s.type_available.erase (rchoice s.r s.type_available).1,
              rchoice_mem (rchoice s.r s.type_available).2 _ h1e,
              List.erase_sublist _ _, ?_, ?_⟩ <;>
              rw [heq] <;> simp [insertCourse]
        · right
          have heq : dayStep avail ct true (some k) sv s
              = insertCourse ct true (some k) sv s.type_available
                  (rchoice s.r s.type_available).1 (rchoice s.r s.type_available).2 s := by
            unfold dayStep
            rw [if_neg hne, htya0]
            simp only [if_neg hcap]
          refine ⟨(rchoice s.r s.type_available).1, s.type_available,
            rchoice_mem _ _ hempty, List.Sublist.refl _, ?_, ?_⟩ <;>
            rw [heq] <;> simp [insertCourse]

lemma dayStep_no_reuse_inv (avail : List Course) (ct : String) (k? : Option ℕ)
    (sv : ℚ) (s : DayState)
    (h1 : (s.type_available.map Course.name).Nodup)
    (h2 : ∀ c ∈ s.type_available, (ct, c.name) ∉ s.trace) :
    (((dayStep avail ct true k? sv s).type_available.map Course.name).Nodup
      ∧ (∀ c ∈ (dayStep avail ct true k? sv s).type_available,
          (ct, c.name) ∉ (dayStep avail ct true k? sv s).trace))
    ∧ ((dayStep avail ct true k? sv s).trace = s.trace
       ∨ ∃ nm, (dayStep avail ct true k? sv s).trace = s.trace ++ [(ct, nm)]
           ∧ (ct, nm) ∉ s.trace) := by
  rcases dayStep_no_reuse_cases avail ct k? sv s with ⟨ht, hsub⟩ |
    ⟨c, tya, hc, hsub, htya, ht⟩
  · refine ⟨⟨(hsub.map Course.name).nodup h1, ?_⟩, Or.inl ht⟩
    intro d hd
    rw [ht]
    exact h2 d (hsub.subset hd)
  · have hcs : c ∈ s.type_available := hsub.subset hc
    have hnodtya : (tya.map Course.name).Nodup := (hsub.map Course.name).nodup h1
    have htyanodup : tya.Nodup := hnodtya.of_map
    refine ⟨⟨?_, ?_⟩, Or.inr ⟨c.name, ht, h2 c hcs⟩⟩
    · rw [htya]
      exact ((tya.erase_sublist c).map Course.name).nodup hnodtya
    · intro d hd
      rw [htya] at hd
      have hdc : d ≠ c ∧ d ∈ tya := (htyanodup.mem_erase_iff).mp hd
      have hds : d ∈ s.type_available := hsub.subset hdc.2
      rw [ht]
      simp only [List.mem_append, List.mem_singleton]
      rintro (hmem | heq)
      · exact h2 d hds hmem
      · have hname : d.name = c.name := congrArg Prod.snd heq
        exact hdc.1 (List.inj_on_of_nodup_map hnodtya hdc.2 hc hname)

lemma dayIter_no_reuse (avail : List Course) (ct : String) (k? : Option ℕ) (sv : ℚ) :
    ∀ (n : ℕ) (s : DayState),
      (s.type_available.map Course.name).Nodup →
      (∀ c ∈ s.type_available, (ct, c.name) ∉ s.trace) →
      ∃ seg : List (String × String),
        ((dayStep avail ct true k? sv)^[n] s).trace = s.trace ++ seg
        ∧ (∀ p ∈ seg, p.1 = ct)
        ∧ (seg.map Prod.snd).Nodup
        ∧ (∀ p ∈ seg, p ∉ s.trace)
  | 0, s, _, _ => ⟨[], by simp, by simp, by simp, by simp⟩
  | n + 1, s, h1, h2 => by
      obtain ⟨⟨h1', h2'⟩, htr⟩ := dayStep_no_reuse_inv avail ct k? sv s h1 h2
      obtain ⟨seg, hseg, hct, hnd, hfresh⟩ :=
        dayIter_no_reuse avail ct k? sv n (dayStep avail ct true k? sv s) h1' h2'
      rw [Function.iterate_succ_apply]
      rcases htr with heq | ⟨nm, heq, hnm⟩
      · refine ⟨seg, by rw [hseg, heq], hct, hnd, fun p hp hmem => ?_⟩
        exact hfresh p hp (heq ▸ hmem)
      · refine ⟨(ct, nm) :: seg, ?_, ?_, ?_, ?_⟩
        · rw [hseg, heq]
          simp
        · intro p hp
          rcases List.mem_cons.mp hp with rfl | hp'
          · rfl
          · exact hct p hp'
        · simp only [List.map_cons, List.nodup_cons]
          refine ⟨?_, hnd⟩
          intro hmem
          obtain ⟨p, hp, hpnm⟩ := List.mem_map.mp hmem
          have hpeq : p = (ct, nm) := by
            obtain ⟨p1, p2⟩ := p
            have hp1 : p1 = ct := hct (p1, p2) hp
            simp only at hpnm
            rw [hp1, hpnm]
          refine hfresh p hp ?_
          rw [heq, hpeq]
          exact List.mem_append_right s.trace (by simp)
        · intro p hp hpmem
          rcases List.mem_cons.mp hp with rfl | hp'
          · exact hnm hpmem
          · exact hfresh p hp' (heq ▸ List.mem_append_left _ hpmem)

lemma planCategory_no_reuse (days : ℕ) (sv : ℚ) (k? : Option ℕ) (ct : String)
    (avail : List Course) (st : PlanState)
    (hn : (avail.map Course.name).Nodup)
    (hfr : ∀ p ∈ st.trace, p.1 ≠ ct) :
    ∃ seg : List (String × String),
      (planCategory days sv true k? st ct avail).trace = st.trace ++ seg
      ∧ (∀ p ∈ seg, p.1 = ct) ∧ (seg.map Prod.snd).Nodup := by
  unfold planCategory
  by_cases ha : avail = []
  · rw [if_pos ha]
    exact ⟨[], by simp, by simp, by simp⟩
  · rw [if_neg ha]
    have h2 : ∀ c ∈ avail, (ct, c.name) ∉
        (⟨avail, [], st.used_courses, st.repeat_counts, st.r, st.trace⟩ : DayState).trace := by
      intro c hc hmem
      exact hfr _ hmem rfl
    obtain ⟨seg, hseg, hct, hnd, _⟩ := dayIter_no_reuse avail ct k? sv days
      ⟨avail, [], st.used_courses, st.repeat_counts, st.r, st.trace⟩ hn h2
    exact ⟨seg, hseg, hct, hnd⟩

lemma genRun_trace_nodup (days : ℕ) (sv : ℚ) (k? : Option ℕ) :
    ∀ (cbt : List (String × List Course)) (st : PlanState),
      (∀ e ∈ cbt, ((e.2.map Course.name).Nodup)) →
      (dictKeys cbt).Nodup →
      (∀ e ∈ cbt, ∀ p ∈ st.trace, p.1 ≠ e.1) →
      (∀ ct, ((st.trace.filter (fun p => p.1 = ct)).map Prod.snd).Nodup) →
      ∀ ct, (((cbt.foldl (fun acc e => planCategory days sv true k? acc e.1 e.2)
          st).trace.filter (fun p => p.1 = ct)).map Prod.snd).Nodup
  | [], st, _, _, _, hP => fun ct => hP ct
  | e :: rest, st, hn, hk, hfr, hP => by
      rw [List.foldl_cons]
      obtain ⟨seg, hseg, hct, hnd⟩ := planCategory_no_reuse days sv k? e.1 e.2 st
        (hn e (by simp)) (fun p hp => hfr e (by simp) p hp)
      have hkcons : (e.1 :: dictKeys rest).Nodup := by simpa [dictKeys] using hk
      apply genRun_trace_nodup days sv k? rest
      · intro e' he'
        exact hn e' (by simp [he'])
      · exact (List.nodup_cons.mp hkcons).2
      · intro e' he' p hp
        rw [hseg] at hp
        rcases List.mem_append.mp hp with hin | hin
        · exact hfr e' (by simp [he']) p hin
        · rw [hct p hin]
          intro heq
          exact (List.nodup_cons.mp hkcons).1
            (heq ▸ List.mem_map_of_mem Prod.fst he')
      · intro ct
        rw [hseg, List.filter_append, List.map_append]
        by_cases hctq : ct = e.1
        · have hpre : st.trace.filter (fun p => p.1 = ct) = [] := by
            rw [List.filter_eq_nil]
            intro p hp
            simpa [hctq] using hfr e (by simp) p hp
          have hsegf : seg.filter (fun p => p.1 = ct) = seg := by
            rw [List.filter_eq_self]
            intro p hp
            simp [hct p hp, hctq]
          rw [hpre, hsegf]
          simpa using hnd
        · have hsegf : seg.filter (fun p => p.1 = ct) = [] := by
            rw [List.filter_eq_nil]
            intro p hp
            simp [hct p hp]
            exact fun h => hctq (h ▸ rfl)
          rw [hsegf]
          simpa using hP ct

lemma effectiveCatalog_keys (cbt : List (String × List Course)) (inc exc : List String) :
    dictKeys (effectiveCatalog cbt inc exc) = dictKeys cbt := by
  unfold effectiveCatalog apply_filters
  by_cases h : inc ≠ [] ∨ exc ≠ []
  · rw [if_pos h]
    simp [dictKeys]
  · rw [if_neg h]

lemma effectiveCatalog_names (cbt : List (String × List Course)) (inc exc : List String)
    (hn : ∀ e' ∈ cbt, ((e'.2.map Course.name).Nodup)) :
    ∀ e ∈ effectiveCatalog cbt inc exc, ((e.2.map Course.name).Nodup) := by
  intro e he
  unfold effectiveCatalog apply_filters at he
  by_cases h : inc ≠ [] ∨ exc ≠ []
  · rw [if_pos h] at he
    obtain ⟨e', he', rfl⟩ := List.mem_map.mp he
    have hsub1 : (if inc ≠ [] then e'.2.filter (fun c => c.name ∈ inc.map strLower)
        else e'.2).Sublist e'.2 := by
      by_cases hi : inc ≠ []
      · rw [if_pos hi]; exact List.filter_sublist _
      · rw [if_neg hi]
    have hsub : (if exc ≠ [] then
        (if inc ≠ [] then e'.2.filter (fun c => c.name ∈ inc.map strLower)
          else e'.2).filter (fun c => c.name ∉ exc.map strLower)
        else (if inc ≠ [] then e'.2.filter (fun c => c.name ∈ inc.map strLower)
          else e'.2)).Sublist e'.2 := by
      by_cases hx : exc ≠ []
      · rw [if_pos hx]; exact (List.filter_sublist _).trans hsub1
      · rw [if_neg hx]; exact hsub1
    exact (hsub.map Course.name).nodup (hn e' he')
  · rw [if_neg h] at he
    exact hn e he

/-- C2: with `no_reuse = true` (non-interactive), no recipe name is
selected twice within its category across the whole plan: the ghost trace
of menu insertions, restricted to any one category, carries pairwise
distinct recipe names — the pool only ever shrinks, a placed recipe is
erased from it, and an exhausted pool skips the day instead of refilling.
Assumes the catalog invariants the storage dictionary guarantees: distinct
category keys and distinct recipe names within a category. -/
theorem C2_no_reuse_invariant (cbt : List (String × List Course)) (days : ℕ)
    (sv : ℚ) (k? : Option ℕ) (inc exc : List String) (r : RState) (ct : String)
    (hn : ∀ e ∈ cbt, ((e.2.map Course.name).Nodup))
    (hk : (dictKeys cbt).Nodup) :
    (((generate_plan_run cbt days sv true k? inc exc r).trace.filter
        (fun p => p.1 = ct)).map Prod.snd).Nodup := by
  unfold generate_plan_run
  refine genRun_trace_nodup days sv k? (effectiveCatalog cbt inc exc) ⟨[], [], [], r, []⟩
    (effectiveCatalog_names cbt inc exc hn) ?_ (by intro e _ p hp; cases hp) ?_ ct
  · rw [effectiveCatalog_keys]
    exact hk
  · intro ct'
    simp

/-- Witness for C2 on the spec's scenario catalog (two breakfasts, two
lunches), three days, category `breakfast`. -/
theorem C2_no_reuse_invariant_witness :
    (((generate_plan_run
        [("breakfast", [⟨"eggs", "breakfast", "", []⟩, ⟨"oats", "breakfast", "", []⟩]),
         ("lunch", [⟨"pasta", "lunch", "", []⟩, ⟨"salad", "lunch", "", []⟩])]
        3 1 true none [] [] ⟨fun n => n, 0⟩).trace.filter
        (fun p => p.1 = "breakfast")).map Prod.snd).Nodup :=
  C2_no_reuse_invariant
    [("breakfast", [⟨"eggs", "breakfast", "", []⟩, ⟨"oats", "breakfast", "", []⟩]),
     ("lunch", [⟨"pasta", "lunch", "", []⟩, ⟨"salad", "lunch", "", []⟩])]
    3 1 none [] [] ⟨fun n => n, 0⟩ "breakfast" (by decide) (by decide)

lemma planCategory_menu_keys (days : ℕ) (sv : ℚ) (nr : Bool) (k? : Option ℕ)
    (ct : String) (avail : List Course) (st : PlanState)
    (hfresh : ct ∉ dictKeys st.menu) :
    dictKeys ((planCategory days sv nr k? st ct avail).menu)
      = if avail = [] then dictKeys st.menu else dictKeys st.menu ++ [ct] := by
  unfold planCategory
  by_cases ha : avail = []
  · rw [if_pos ha, if_pos ha]
  · rw [if_neg ha, if_neg ha]
    show dictKeys (dictInsert ct _ st.menu) = _
    rw [dictInsert_of_not_mem _ _ _ hfresh]
    simp [dictKeys]

lemma genRun_menu_keys (days : ℕ) (sv : ℚ) (nr : Bool) (k? : Option ℕ) :
    ∀ (cbt : List (String × List Course)) (st : PlanState),
      (∀ k ∈ dictKeys cbt, k ∉ dictKeys st.menu) →
      (dictKeys cbt).Nodup →
      dictKeys ((cbt.foldl (fun acc e => planCategory days sv nr k? acc e.1 e.2) st).menu)
        = dictKeys st.menu ++ (cbt.filter (fun e => e.2 ≠ [])).map Prod.fst
  | [], st, _, _ => by simp
  | e :: rest, st, hdisj, hk => by
      rw [List.foldl_cons]
      have hkcons : (e.1 :: dictKeys rest).Nodup := by simpa [dictKeys] using hk
      have hfresh : e.1 ∉ dictKeys st.menu := hdisj e.1 (by simp [dictKeys])
      have hkeys := planCategory_menu_keys days sv nr k? e.1 e.2 st hfresh
      have hdisj' : ∀ k ∈ dictKeys rest,
          k ∉ dictKeys ((planCategory days sv nr k? st e.1 e.2).menu) := by
        intro k hkr
        rw [hkeys]
        have h1 : k ∉ dictKeys st.menu := hdisj k (by simp [dictKeys]; exact Or.inr (by simpa [dictKeys] using hkr))
        have h2 : k ≠ e.1 := by
          intro he
          exact (List.nodup_cons.mp hkcons).1 (he ▸ hkr)
        by_cases ha : e.2 = [] <;> simp [ha, h1, h2]
      rw [genRun_menu_keys days sv nr k? rest _ hdisj' (List.nodup_cons.mp hkcons).2, hkeys]
      by_cases ha : e.2 = [] <;> simp [List.filter_cons, ha]

/-- C7: a category whose candidate list after include/exclude filtering is
empty contributes nothing — the menu's keys are exactly the non-empty
filtered categories, so the empty category's key is omitted entirely rather
than present with an empty mapping; and a day on which the `no_reuse` pool
is exhausted is silently skipped, leaving the whole day-loop state (menu
included) unchanged, with no error raised (the embedding is a total
function). -/
theorem C7_empty_category_omitted (cbt : List (String × List Course)) (days : ℕ)
    (sv : ℚ) (nr : Bool) (k? : Option ℕ) (inc exc : List String) (r : RState)
    (avail : List Course) (ct : String) (k2? : Option ℕ) (sv2 : ℚ) (s : DayState)
    (hk : (dictKeys (effectiveCatalog cbt inc exc)).Nodup)
    (hs : s.type_available = []) :
    dictKeys ((generate_plan_run cbt days sv nr k? inc exc r).menu)
      = ((effectiveCatalog cbt inc exc).filter (fun e => e.2 ≠ [])).map Prod.fst
    ∧ dayStep avail ct true k2? sv2 s = s := by
  constructor
  · unfold generate_plan_run
    rw [genRun_menu_keys days sv nr k? (effectiveCatalog cbt inc exc) ⟨[], [], [], r, []⟩
      (by intro k hk'; simp [dictKeys]) hk]
    simp [dictKeys]
  · unfold dayStep
    rw [if_pos ⟨hs, rfl⟩]

/-- Witness for C7: a catalog where `exclude` empties the lunch category —
the menu keys are exactly `[breakfast]` — plus a concrete exhausted-pool
day state left untouched. -/
theorem C7_empty_category_omitted_witness :
    dictKeys ((generate_plan_run
        [("breakfast", [⟨"eggs", "breakfast", "", []⟩]),
         ("lunch", [⟨"pasta", "lunch", "", []⟩])]
        2 1 false none [] ["pasta"] ⟨fun n => n, 0⟩).menu)
      = ((effectiveCatalog
          [("breakfast", [⟨"eggs", "breakfast", "", []⟩]),
           ("lunch", [⟨"pasta", "lunch", "", []⟩])] [] ["pasta"]).filter
          (fun e => e.2 ≠ [])).map Prod.fst
    ∧ dayStep [⟨"eggs", "breakfast", "", []⟩] "breakfast" true none 1
        ⟨[], [], [], [], ⟨fun n => n, 0⟩, []⟩
      = ⟨[], [], [], [], ⟨fun n => n, 0⟩, []⟩ :=
  C7_empty_category_omitted
    [("breakfast", [⟨"eggs", "breakfast", "", []⟩]),
     ("lunch", [⟨"pasta", "lunch", "", []⟩])]
    2 1 false none [] ["pasta"] ⟨fun n => n, 0⟩
    [⟨"eggs", "breakfast", "", []⟩] "breakfast" none 1
    ⟨[], [], [], [], ⟨fun n => n, 0⟩, []⟩ (by decide) rfl

lemma mem_dictInsert {α : Type} (p : String × α) (k : String) (v : α) :
    ∀ d : List (String × α), p ∈ dictInsert k v d → p = (k, v) ∨ p ∈ d
  | [], hp => by simpa [dictInsert] using hp
  | (k', v') :: rest, hp => by
      by_cases hk : k' = k
      · rw [dictInsert, if_pos hk] at hp
        rcases List.mem_cons.mp hp with h | h
        · exact Or.inl h
        · exact Or.inr (List.mem_cons_of_mem _ h)
      · rw [dictInsert, if_neg hk] at hp
        rcases List.mem_cons.mp hp with h | h
        · exact Or.inr (h ▸ List.mem_cons_self _ _)
        · rcases mem_dictInsert p k v rest h with h' | h'
          · exact Or.inl h'
          · exact Or.inr (List.mem_cons_of_mem _ h')

lemma insertCourse_type_available_sub (ct : String) (nr : Bool) (k? : Option ℕ)
    (sv : ℚ) (tya : List Course) (c : Course) (r : RState) (s : DayState) :
    ∀ c' ∈ (insertCourse ct nr k? sv tya c r s).type_available, c' ∈ tya := by
  intro c' hc'
  simp only [insertCourse] at hc'
  by_cases hnr : nr = true
  · rw [if_pos hnr] at hc'
    exact (tya.erase_sublist c).subset hc'
  · rw [if_neg hnr] at hc'
    exact hc'

lemma dayStep_catMenu_cases (avail : List Course) (ct : String) (nr : Bool)
    (k? : Option ℕ) (sv : ℚ) (s : DayState)
    (ha : avail ≠ [])
    (hsub : ∀ c ∈ s.type_available, c ∈ avail) :
    ((dayStep avail ct nr k? sv s).catMenu = s.catMenu
      ∨ ∃ c ∈ avail, (dayStep avail ct nr k? sv s).catMenu
          = dictInsert c.name (c.scale_servings sv).to_dict s.catMenu)
    ∧ ∀ c ∈ (dayStep avail ct nr k? sv s).type_available, c ∈ avail := by
  by_cases hskip : s.type_available = [] ∧ nr = true
  · have hd : dayStep avail ct nr k? sv s = s := by
      unfold dayStep
      rw [if_pos hskip]
    rw [hd]
    exact ⟨Or.inl rfl, hsub⟩
  · have htya0sub : ∀ c ∈ (if s.type_available = [] then avail else s.type_available),
        c ∈ avail := by
      by_cases he : s.type_available = []
      · rw [if_pos he]; exact fun c hc => hc
      · rw [if_neg he]; exact hsub
    have htya0ne : (if s.type_available = [] then avail else s.type_available) ≠ [] := by
      by_cases he : s.type_available = []
      · rw [if_pos he]; exact ha
      · rw [if_neg he]; exact he
    set tya0 := if s.type_available = [] then avail else s.type_available with htya0
    have hinsert : ∀ (k2? : Option ℕ) (tya : List Course) (c : Course) (r : RState),
        c ∈ avail → (∀ x ∈ tya, x ∈ avail) →
        ((insertCourse ct nr k2? sv tya c r s).catMenu = s.catMenu
          ∨ ∃ c' ∈ avail, (insertCourse ct nr k2? sv tya c r s).catMenu
              = dictInsert c'.name (c'.scale_servings sv).to_dict s.catMenu)
        ∧ ∀ x ∈ (insertCourse ct nr k2? sv tya c r s).type_available, x ∈ avail := by
      intro k2? tya c r hc htya
      refine ⟨Or.inr ⟨c, hc, rfl⟩, ?_⟩
      intro x hx
      exact htya x (insertCourse_type_available_sub ct nr k2? sv tya c r s x hx)
    cases k? with
    | none =>
        have heq : dayStep avail ct nr none sv s
            = insertCourse ct nr none sv tya0 (rchoice s.r tya0).1 (rchoice s.r tya0).2 s := by
          unfold dayStep
          rw [if_neg hskip]
        rw [heq]
        exact hinsert none tya0 _ _ (htya0sub _ (rchoice_mem s.r tya0 htya0ne)) htya0sub
    | some k =>
        by_cases hcap : k ≤ (dictGet ((rchoice s.r tya0).1.course_type ++ ":"
            ++ (rchoice s.r tya0).1.name) s.repeat_counts).getD 0
        · by_cases h1e : tya0.erase (rchoice s.r tya0).1 = []
          · by_cases hnr : nr = true
            · have heq : dayStep avail ct nr (some k) sv s
                  = { s with
                      type_available := tya0.erase (rchoice s.r tya0).1,
                      r := (rchoice s.r tya0).2 } := by
                unfold dayStep
                rw [if_neg hskip]
                simp only [← htya0, if_pos hcap, if_pos h1e, if_pos hnr]
              rw [heq]
              refine ⟨Or.inl rfl, ?_⟩
              intro x hx
              exact htya0sub x ((tya0.erase_sublist _).subset hx)
            · have heq : dayStep avail ct nr (some k) sv s
                  = insertCourse ct nr (some k) sv avail
                      (rchoice (rchoice s.r tya0).2 avail).1
                      (rchoice (rchoice s.r tya0).2 avail).2 s := by
                unfold dayStep
                rw [if_neg hskip]
                simp only [← htya0, if_pos hcap, if_pos h1e, if_neg hnr]
              rw [heq]
              exact hinsert (some k) avail _ _ (rchoice_mem _ avail ha) (fun x hx => hx)
          · have heq : dayStep avail ct nr (some k) sv s
                = insertCourse ct nr (some k) sv (tya0.erase (rchoice s.r tya0).1)
                    (rchoice (rchoice s.r tya0).2 (tya0.erase (rchoice s.r tya0).1)).1
                    (rchoice (rchoice s.r tya0).2 (tya0.erase (rchoice s.r tya0).1)).2 s := by
              unfold dayStep
              rw [if_neg hskip]
              simp only [← htya0, if_pos hcap, if_neg h1e]
            rw [heq]
            refine hinsert (some k) _ _ _ ?_ ?_
            · exact htya0sub _ ((tya0.erase_sublist _).subset
                (rchoice_mem (rchoice s.r tya0).2 _ h1e))
            · intro x hx
              exact htya0sub x ((tya0.erase_sublist _).subset hx)
        · have heq : dayStep avail ct nr (some k) sv s
              = insertCourse ct nr (some k) sv tya0
                  (rchoice s.r tya0).1 (rchoice s.r tya0).2 s := by
            unfold dayStep
            rw [if_neg hskip]
            simp only [← htya0, if_neg hcap]
          rw [heq]
          exact hinsert (some k) tya0 _ _ (htya0sub _ (rchoice_mem s.r tya0 htya0ne)) htya0sub

lemma dictKeys_dictInsert {α : Type} (k : String) (v : α) :
    ∀ d : List (String × α),
      dictKeys (dictInsert k v d)
        = if k ∈ dictKeys d then dictKeys d else dictKeys d ++ [k]
  | [] => by simp [dictInsert, dictKeys]
  | (k', v') :: rest => by
      have hcons : dictKeys ((k', v') :: rest) = k' :: dictKeys rest := rfl
      by_cases hk : k' = k
      · subst hk
        rw [dictInsert, if_pos rfl]
        have hmem : k' ∈ dictKeys ((k', v') :: rest) := by
          rw [hcons]; exact List.mem_cons_self _ _
        rw [if_pos hmem]
        rfl
      · rw [dictInsert, if_neg hk]
        have hstep : dictKeys ((k', v') :: dictInsert k v rest)
            = k' :: dictKeys (dictInsert k v rest) := rfl
        rw [hstep, dictKeys_dictInsert k v rest]
        by_cases hmem : k ∈ dictKeys rest
        · rw [if_pos hmem, if_pos (by rw [hcons]; exact List.mem_cons_of_mem _ hmem), hcons]
        · rw [if_neg hmem, if_neg (by
            rw [hcons]
            intro h
            rcases List.mem_cons.mp h with h' | h'
            · exact hk h'.symm
            · exact hmem h'), hcons]
          rfl

lemma dayIter_catMenu (avail : List Course) (ct : String) (nr : Bool)
    (k? : Option ℕ) (sv : ℚ) (ha : avail ≠ []) :
    ∀ (n : ℕ) (s : DayState),
      (∀ c ∈ s.type_available, c ∈ avail) →
      (dictKeys s.catMenu).Nodup →
      (∀ nm ∈ dictKeys s.catMenu, nm ∈ avail.map Course.name) →
      (dictKeys ((dayStep avail ct nr k? sv)^[n] s).catMenu).Nodup
      ∧ (∀ nm ∈ dictKeys ((dayStep avail ct nr k? sv)^[n] s).catMenu,
          nm ∈ avail.map Course.name)
  | 0, s, _, h1, h2 => ⟨h1, h2⟩
  | n + 1, s, hsub, h1, h2 => by
      rw [Function.iterate_succ_apply]
      obtain ⟨hcm, hsub'⟩ := dayStep_catMenu_cases avail ct nr k? sv s ha hsub
      refine dayIter_catMenu avail ct nr k? sv ha n _ hsub' ?_ ?_
      · rcases hcm with heq | ⟨c, hc, heq⟩
        · rw [heq]; exact h1
        · rw [heq, dictKeys_dictInsert]
          by_cases hmem : c.name ∈ dictKeys s.catMenu
          · rw [if_pos hmem]; exact h1
          · rw [if_neg hmem]
            simp only [List.nodup_append, List.nodup_singleton]
            exact ⟨h1, by simp, by simpa using hmem⟩
      · rcases hcm with heq | ⟨c, hc, heq⟩
        · rw [heq]; exact h2
        · rw [heq, dictKeys_dictInsert]
          by_cases hmem : c.name ∈ dictKeys s.catMenu
          · rw [if_pos hmem]; exact h2
          · rw [if_neg hmem]
            intro nm hnm
            rcases List.mem_append.mp hnm with h | h
            · exact h2 nm h
            · rw [List.mem_singleton.mp h]
              exact List.mem_map_of_mem Course.name hc

lemma planCategory_catMenu (days : ℕ) (sv : ℚ) (nr : Bool) (k? : Option ℕ)
    (ct : String) (avail : List Course) (st : PlanState) (ha : avail ≠ []) :
    ∃ cm, (planCategory days sv nr k? st ct avail).menu = dictInsert ct cm st.menu
      ∧ (dictKeys cm).Nodup ∧ (∀ nm ∈ dictKeys cm, nm ∈ avail.map Course.name) := by
  unfold planCategory
  rw [if_neg ha]
  obtain ⟨h1, h2⟩ := dayIter_catMenu avail ct nr k? sv ha days
    ⟨avail, [], st.used_courses, st.repeat_counts, st.r, st.trace⟩
    (fun c hc => hc) (by simp [dictKeys]) (by simp [dictKeys])
  exact ⟨_, rfl, h1, h2⟩

lemma genRun_menu_good (days : ℕ) (sv : ℚ) (nr : Bool) (k? : Option ℕ)
    (P : String × List (String × CourseData) → Prop) :
    ∀ (cbt : List (String × List Course)) (st : PlanState),
      (∀ p ∈ st.menu, P p) →
      (∀ e ∈ cbt, e.2 ≠ [] → ∀ cm, (dictKeys cm).Nodup →
        (∀ nm ∈ dictKeys cm, nm ∈ e.2.map Course.name) → P (e.1, cm)) →
      ∀ p ∈ (cbt.foldl (fun acc e => planCategory days sv nr k? acc e.1 e.2) st).menu, P p
  | [], st, hP, _ => hP
  | e :: rest, st, hP, hstep => by
      rw [List.foldl_cons]
      refine genRun_menu_good days sv nr k? P rest _ ?_
        (fun e' he' => hstep e' (List.mem_cons_of_mem _ he')) 
      by_cases ha : e.2 = []
      · have hnc : planCategory days sv nr k? st e.1 e.2 = st := by
          unfold planCategory; rw [if_pos ha]
        rw [hnc]
        exact hP
      · obtain ⟨cm, hmenu, hnd, hnames⟩ := planCategory_catMenu days sv nr k? e.1 e.2 st ha
        intro p hp
        rw [hmenu] at hp
        rcases mem_dictInsert p e.1 cm st.menu hp with rfl | hin
        · exact hstep e (List.mem_cons_self _ _) ha cm hnd hnames
        · exact hP p hin

lemma length_le_dedup (l names : List String)
    (hnd : l.Nodup) (hsub : ∀ x ∈ l, x ∈ names) : l.length ≤ names.dedup.length := by
  have h1 : l.toFinset.card = l.length := List.toFinset_card_of_nodup hnd
  have h2 : l.toFinset ⊆ names.toFinset := fun x hx =>
    List.mem_toFinset.mpr (hsub x (List.mem_toFinset.mp hx))
  calc l.length = l.toFinset.card := h1.symm
    _ ≤ names.toFinset.card := Finset.card_le_card h2
    _ = names.dedup.length := List.card_toFinset names

/-- C9: each category of a generated menu holds at most one entry per
recipe name — entries are inserted under `menu[category][name]`, so a
recipe drawn twice overwrites its earlier entry, the stored keys are
pairwise distinct recipe names drawn from that category's eligible pool,
and the number of entries never exceeds the number of distinct eligible
recipe names, however large `days` is. -/
theorem C9_menu_keyed_by_name (cbt : List (String × List Course)) (days : ℕ)
    (sv : ℚ) (nr : Bool) (k? : Option ℕ) (inc exc : List String) (r : RState)
    (p : String × List (String × CourseData))
    (hp : p ∈ (generate_plan_run cbt days sv nr k? inc exc r).menu) :
    (dictKeys p.2).Nodup
    ∧ ∃ e ∈ effectiveCatalog cbt inc exc, p.1 = e.1
        ∧ (∀ nm ∈ dictKeys p.2, nm ∈ e.2.map Course.name)
        ∧ p.2.length ≤ ((e.2.map Course.name).dedup).length := by
  have hgood := genRun_menu_good days sv nr k?
    (fun q => (dictKeys q.2).Nodup
      ∧ ∃ e ∈ effectiveCatalog cbt inc exc, q.1 = e.1
          ∧ (∀ nm ∈ dictKeys q.2, nm ∈ e.2.map Course.name)
          ∧ q.2.length ≤ ((e.2.map Course.name).dedup).length)
    (effectiveCatalog cbt inc exc) ⟨[], [], [], r, []⟩
    (by intro q hq; cases hq)
    (by
      intro e he hne cm hnd hnames
      refine ⟨hnd, e, he, rfl, hnames, ?_⟩
      have : (dictKeys cm).length ≤ ((e.2.map Course.name).dedup).length :=
        length_le_dedup (dictKeys cm) (e.2.map Course.name) hnd hnames
      simpa [dictKeys] using this)
  exact hgood p hp

/-- Witness for C9: one lunch course, two days — the menu's single lunch
entry has one distinctly-keyed recipe, within the bound. -/
theorem C9_menu_keyed_by_name_witness :
    (dictKeys (("lunch", [("a", (⟨"", []⟩ : CourseData))]) :
        String × List (String × CourseData)).2).Nodup
    ∧ ∃ e ∈ effectiveCatalog [("lunch", [⟨"a", "lunch", "", []⟩])] [] [],
        (("lunch", [("a", (⟨"", []⟩ : CourseData))]) :
          String × List (String × CourseData)).1 = e.1
        ∧ (∀ nm ∈ dictKeys (("lunch", [("a", (⟨"", []⟩ : CourseData))]) :
            String × List (String × CourseData)).2, nm ∈ e.2.map Course.name)
        ∧ (("lunch", [("a", (⟨"", []⟩ : CourseData))]) :
            String × List (String × CourseData)).2.length
          ≤ ((e.2.map Course.name).dedup).length :=
  C9_menu_keyed_by_name [("lunch", [⟨"a", "lunch", "", []⟩])] 2 1 false none [] []
    ⟨fun n => n, 0⟩ ("lunch", [("a", ⟨"", []⟩)]) (by decide)
